import Mathlib

/-!
Verification development for the hybrid retrieval core (app/retrieval.py).

The Python source is shallowly embedded: Python dicts (which preserve
insertion order, update in place on existing keys, and append new keys at
the end) become association lists over String keys; floats become rationals;
wall-clock times become integers; a Python function that may raise becomes a
function into Except or Option.  Python's sorted with reverse=True is a
stable descending sort; it is modelled by a structurally recursive stable
insertion sort, which agrees with any stable sort extensionally.
-/

namespace RagRetrieval

/-- One search hit as built by the three strategy adapters in retrieval.py
(_search_elser, _search_bm25, _search_dense): the dict with keys content,
filename, drive_url, chunk_id, score, rank. -/
structure SearchResult where
  content : String
  filename : String
  drive_url : String
  chunk_id : String
  score : ℚ
  rank : ℕ
deriving DecidableEq, Repr

/-- Lookup in a Python dict modelled as an insertion-ordered association list. -/
def getVal {α : Type} : List (String × α) → String → Option α
  | [], _ => none
  | (k, v) :: rest, key => if k = key then some v else getVal rest key

/-- Python dict assignment d[key] = v: update in place if the key exists,
otherwise append the new binding at the end (insertion order). -/
def dset {α : Type} : List (String × α) → String → α → List (String × α)
  | [], key, v => [(key, v)]
  | (k, w) :: rest, key, v =>
    if k = key then (k, v) :: rest else (k, w) :: dset rest key v

/-- Python dict.pop(key, None): drop the binding of key, if any. -/
def dpop {α : Type} : List (String × α) → String → List (String × α)
  | [], _ => []
  | (k, v) :: rest, key => if k = key then rest else (k, v) :: dpop rest key

/-- The defaultdict(float) update doc_scores[doc_id] += inc in
_reciprocal_rank_fusion: add inc to the running score (0 when absent). -/
def addScore : List (String × ℚ) → String → ℚ → List (String × ℚ)
  | [], key, inc => [(key, inc)]
  | (k, v) :: rest, key, inc =>
    if k = key then (k, v + inc) :: rest else (k, v) :: addScore rest key inc

/-- One "Process ... results" loop of _reciprocal_rank_fusion
(retrieval.py lines 293-309), processing the documents of one input list
starting at 0-based enumeration index i: for each doc,
doc_scores[chunk_id] += 1 / (k + i + 1) and doc_info[chunk_id] = doc. -/
def processFrom (k : ℚ) :
    ℕ → List SearchResult → List (String × ℚ) × List (String × SearchResult) →
    List (String × ℚ) × List (String × SearchResult)
  | _, [], st => st
  | i, doc :: rest, (scores, info) =>
    processFrom k (i + 1) rest
      (addScore scores doc.chunk_id (1 / (k + (i : ℚ) + 1)),
       dset info doc.chunk_id doc)

/-- One insertion step of the stable descending sort modelling Python's
sorted(items, key = score, reverse = True): x is placed in front of the
first element whose score is at most x's score, so that among equal scores
earlier input elements stay in front. -/
def insertDesc (x : String × ℚ) : List (String × ℚ) → List (String × ℚ)
  | [] => [x]
  | y :: ys => if y.2 ≤ x.2 then x :: y :: ys else y :: insertDesc x ys

/-- Stable descending sort by score, modelling
sorted(doc_scores.items(), key = lambda x: x[1], reverse = True)
at retrieval.py line 312. -/
def sortDesc : List (String × ℚ) → List (String × ℚ)
  | [] => []
  | x :: xs => insertDesc x (sortDesc xs)

/-- The accumulated (doc_scores, doc_info) state after the three processing
loops of _reciprocal_rank_fusion, iterated in the source's fixed order:
elser_results first, then bm25_results, then dense_results. -/
def fusionState (elser_results bm25_results dense_results : List SearchResult)
    (k : ℚ) : List (String × ℚ) × List (String × SearchResult) :=
  processFrom k 0 dense_results
    (processFrom k 0 bm25_results
      (processFrom k 0 elser_results ([], [])))

/-- HybridRetriever._reciprocal_rank_fusion (retrieval.py lines 283-321):
accumulate RRF scores and payloads, sort by score descending, and emit
(doc_info[doc_id], rrf_score) for each scored chunk_id.  The lookup in
doc_info is total in the source because doc_scores and doc_info always hold
the same keys; the embedding uses filterMap for the same lookup. -/
def reciprocal_rank_fusion (elser_results bm25_results dense_results : List SearchResult)
    (k : ℚ) : List (SearchResult × ℚ) :=
  (sortDesc (fusionState elser_results bm25_results dense_results k).1).filterMap
    (fun p => (getVal (fusionState elser_results bm25_results dense_results k).2 p.1).map
      (fun doc => (doc, p.2)))

/-- 1-based rank of the first result with the given chunk_id in one input
list (the spec's rank r), absent when no result has that chunk_id. -/
def rankOf : List SearchResult → String → Option ℕ
  | [], _ => none
  | d :: rest, cid =>
    if d.chunk_id = cid then some 1 else (rankOf rest cid).map (· + 1)

/-- The spec's per-list RRF contribution: 1 / (k + r) for the list containing
the chunk at 1-based rank r, and 0 for a list not containing it. -/
def contrib (k : ℚ) (docs : List SearchResult) (cid : String) : ℚ :=
  match rankOf docs cid with
  | some r => 1 / (k + (r : ℚ))
  | none => 0

/-- The exact score mass one processing loop adds for a given chunk_id when
started at enumeration index i: each occurrence at 0-based offset j past i
contributes 1 / (k + i + j + 1). -/
def contribFrom (k : ℚ) : ℕ → List SearchResult → String → ℚ
  | _, [], _ => 0
  | i, d :: rest, cid =>
    (if d.chunk_id = cid then 1 / (k + (i : ℚ) + 1) else 0) +
      contribFrom k (i + 1) rest cid

/-- Append a key if it is not already present: how one dict update extends
the insertion-ordered key list. -/
def insKey (ks : List String) (key : String) : List String :=
  if key ∈ ks then ks else ks ++ [key]

/-- Key list accumulated over a sequence of dict updates: the order in which
distinct keys were first encountered. -/
def accKeys : List String → List String → List String
  | ks, [] => ks
  | ks, key :: rest => accKeys (insKey ks key) rest

/-- Drop the first occurrence of a key from a key list: how popping a key
acts on the insertion-ordered key list of a dict. -/
def eraseKey : List String → String → List String
  | [], _ => []
  | s :: rest, key => if s = key then rest else s :: eraseKey rest key

/-- The last result carrying the given chunk_id in one input list: the
payload that survives the unconditional doc_info[doc_id] = doc overwrites. -/
def lastDoc : List SearchResult → String → Option SearchResult
  | [], _ => none
  | d :: rest, cid =>
    match lastDoc rest cid with
    | some d' => some d'
    | none => if d.chunk_id = cid then some d else none

/-- EmbeddingCache (retrieval.py lines 16-96): an LRU cache with TTL.  The
three Python dicts self.cache, self.access_times, self.creation_times are
insertion-ordered association lists; wall-clock instants from time.time()
are integers supplied explicitly to each operation.  The md5 key derivation
_hash_text is modelled as an injective key function, i.e. the text itself
is used as the key. -/
structure EmbeddingCache where
  max_size : ℕ
  ttl_seconds : ℤ
  cache : List (String × List ℚ)
  access_times : List (String × ℤ)
  creation_times : List (String × ℤ)
deriving DecidableEq, Repr

/-- EmbeddingCache._is_expired: true when the key has no creation time or
its age now - created exceeds ttl_seconds. -/
def isExpired (c : EmbeddingCache) (key : String) (now : ℤ) : Bool :=
  match getVal c.creation_times key with
  | none => true
  | some created => decide (c.ttl_seconds < now - created)

/-- EmbeddingCache._remove_key: pop the key from all three dicts. -/
def removeKey (c : EmbeddingCache) (key : String) : EmbeddingCache :=
  { c with
    cache := dpop c.cache key
    access_times := dpop c.access_times key
    creation_times := dpop c.creation_times key }

/-- The fold inside min(self.access_times.keys(), key = ...): Python's min
returns the first key (in dict insertion order) attaining the minimal
value, since later candidates replace the best one only when strictly
smaller. -/
def minKeyAux (bk : String) (bv : ℤ) : List (String × ℤ) → String
  | [] => bk
  | (k, v) :: rest => if v < bv then minKeyAux k v rest else minKeyAux bk bv rest

/-- The least-recently-used key: first key of minimal access time, none when
access_times is empty. -/
def minKey : List (String × ℤ) → Option String
  | [] => none
  | (k, v) :: rest => some (minKeyAux k v rest)

/-- EmbeddingCache._evict_lru: remove the least-recently-used key, or do
nothing when access_times is empty. -/
def evict_lru (c : EmbeddingCache) : EmbeddingCache :=
  match minKey c.access_times with
  | none => c
  | some lru => removeKey c lru

/-- The while-loop of put (while len(self.cache) >= self.max_size:
self._evict_lru()), with explicit fuel.  Whenever the Python loop
terminates, the fuel cache.length suffices, since each productive
iteration shrinks the cache by one entry. -/
def evictLoop : ℕ → EmbeddingCache → EmbeddingCache
  | 0, c => c
  | fuel + 1, c =>
    if c.max_size ≤ c.cache.length then evictLoop fuel (evict_lru c) else c

/-- The "Store new embedding" tail of put (retrieval.py lines 74-78): write
the value and both timestamps under the key in all three dicts. -/
def storeEntry (c : EmbeddingCache) (key : String) (emb : List ℚ) (now : ℤ) :
    EmbeddingCache :=
  { c with
    cache := dset c.cache key emb
    access_times := dset c.access_times key now
    creation_times := dset c.creation_times key now }

/-- EmbeddingCache.put (retrieval.py lines 66-80): evict while at capacity,
then store the embedding with fresh timestamps. -/
def put (c : EmbeddingCache) (text : String) (emb : List ℚ) (now : ℤ) :
    EmbeddingCache :=
  storeEntry (evictLoop c.cache.length c) text emb now

/-- EmbeddingCache.get (retrieval.py lines 50-64): a present, unexpired key
is returned and its access time refreshed; a present but expired key is
removed from all three dicts and none is returned; an absent key returns
none and leaves the cache unchanged. -/
def get (c : EmbeddingCache) (text : String) (now : ℤ) :
    Option (List ℚ) × EmbeddingCache :=
  match getVal c.cache text with
  | some v =>
    if isExpired c text now then (none, removeKey c text)
    else (some v, { c with access_times := dset c.access_times text now })
  | none => (none, c)

/-- EmbeddingCache.clear: drop all entries, keeping configuration. -/
def clear (c : EmbeddingCache) : EmbeddingCache :=
  { c with cache := [], access_times := [], creation_times := [] }

/-- EmbeddingCache.__init__: empty cache with the given bounds. -/
def emptyCache (max_size : ℕ) (ttl_seconds : ℤ) : EmbeddingCache :=
  ⟨max_size, ttl_seconds, [], [], []⟩

/-- The hit-counter increment of HybridRetriever._generate_query_embedding
(retrieval.py lines 157-159): a lookup counts as a hit exactly when get
returned a vector; anything else is a miss. -/
def hitIncrement (r : Option (List ℚ)) : ℕ :=
  if r.isSome then 1 else 0

/-- One externally visible cache operation, with the wall-clock instant at
which it runs. -/
inductive CacheOp where
  | opGet (text : String) (now : ℤ)
  | opPut (text : String) (emb : List ℚ) (now : ℤ)
  | opClear
deriving DecidableEq, Repr

/-- Apply one cache operation to the state. -/
def applyOp (c : EmbeddingCache) : CacheOp → EmbeddingCache
  | .opGet text now => (get c text now).2
  | .opPut text emb now => put c text emb now
  | .opClear => clear c

/-- Run a sequence of cache operations from a starting state. -/
def runOps (c : EmbeddingCache) (ops : List CacheOp) : EmbeddingCache :=
  ops.foldl applyOp c

/-- The cache representation invariant: the three dicts hold exactly the
same keys in the same order, keys are unique, and the entry count respects
the bound. -/
def CacheInv (c : EmbeddingCache) : Prop :=
  c.cache.map Prod.fst = c.access_times.map Prod.fst ∧
  c.cache.map Prod.fst = c.creation_times.map Prod.fst ∧
  (c.cache.map Prod.fst).Nodup ∧
  c.cache.length ≤ c.max_size

/-- The structural part of the cache invariant, without the size bound:
the three dicts hold the same keys in the same order, without duplicates.
This part survives transient over-capacity states inside put. -/
def KeysAligned (c : EmbeddingCache) : Prop :=
  c.cache.map Prod.fst = c.access_times.map Prod.fst ∧
  c.cache.map Prod.fst = c.creation_times.map Prod.fst ∧
  (c.cache.map Prod.fst).Nodup

/-- One Elasticsearch hit as consumed by the adapters: the _source fields
plus the backend score. -/
structure Hit where
  content : String
  filename : String
  drive_url : String
  chunk_id : String
  score : ℚ
deriving DecidableEq, Repr

/-- The result-building loop shared by the three adapters: hit number j
(0-based) becomes a result dict with rank j + 1. -/
def hitsToResults (hits : List Hit) : List SearchResult :=
  hits.enum.map (fun p => ⟨p.2.content, p.2.filename, p.2.drive_url, p.2.chunk_id, p.2.score, p.1 + 1⟩)

/-- The external calls a query can make, in the abstract: each backend
search takes the requested size and either returns the hit list or raises
(Except.error), and the dense adapter's embedding step (cache lookup plus
model encode) either yields a vector or raises. -/
structure Backends where
  elser : ℕ → Except String (List Hit)
  bm25 : ℕ → Except String (List Hit)
  denseEmbed : Except String (List ℚ)
  dense : ℕ → Except String (List Hit)

/-- HybridRetriever._search_elser (retrieval.py lines 175-210): any raise
from the backend call is caught and an empty list returned. -/
def search_elser (b : Backends) (top_k : ℕ) : List SearchResult :=
  match b.elser top_k with
  | .ok hits => hitsToResults hits
  | .error _ => []

/-- HybridRetriever._search_bm25 (retrieval.py lines 212-245): any raise
from the backend call is caught and an empty list returned. -/
def search_bm25 (b : Backends) (top_k : ℕ) : List SearchResult :=
  match b.bm25 top_k with
  | .ok hits => hitsToResults hits
  | .error _ => []

/-- HybridRetriever._search_dense (retrieval.py lines 247-281): a raise in
either the embedding step or the backend call is caught and an empty list
returned. -/
def search_dense (b : Backends) (top_k : ℕ) : List SearchResult :=
  match b.denseEmbed with
  | .error _ => []
  | .ok _ =>
    match b.dense top_k with
    | .ok hits => hitsToResults hits
    | .error _ => []

/-- settings.RRF_K. -/
def RRF_K : ℚ := 60

/-- A search output entry: the result dict, whose rrf_score key is present
only in hybrid mode. -/
def SearchOutput : Type := List (SearchResult × Option ℚ)

/-- The body of HybridRetriever.search inside its try block (retrieval.py
lines 346-376): elser mode queries the ELSER adapter with a pool of top_k
and truncates; hybrid mode queries all three adapters with pools of
top_k * 2, fuses with k = RRF_K, and truncates; any other mode raises
ValueError. -/
def searchInner (b : Backends) (mode : String) (top_k : ℕ) :
    Except String SearchOutput :=
  if mode = "elser" then
    .ok (((search_elser b top_k).take top_k).map (fun r => (r, none)))
  else if mode = "hybrid" then
    .ok (((reciprocal_rank_fusion (search_elser b (top_k * 2))
            (search_bm25 b (top_k * 2))
            (search_dense b (top_k * 2)) RRF_K).take top_k).map
          (fun p => (p.1, some p.2)))
  else
    .error ("Unknown search mode: " ++ mode)

/-- HybridRetriever.search (retrieval.py lines 340-380): the whole body sits
in a try block whose blanket except handler returns an empty list, so every
raise inside, including the ValueError for an unknown mode, reaches the
caller as []. -/
def search (b : Backends) (mode : String) (top_k : ℕ) : SearchOutput :=
  match searchInner b mode top_k with
  | .ok r => r
  | .error _ => []

/-! ### Association-list dictionary lemmas -/

theorem getVal_dset {α : Type} (key : String) (v : α) (d : List (String × α)) (x : String) :
    getVal (dset d key v) x = if key = x then some v else getVal d x := by
  induction d with
  | nil => simp [dset, getVal]
  | cons hd tl ih =>
    obtain ⟨k, w⟩ := hd
    by_cases hk : k = key
    · subst hk
      by_cases hx : k = x
      · subst hx
        simp [dset, getVal]
      · simp [dset, getVal, hx]
    · by_cases hx : k = x
      · subst hx
        simp [dset, getVal, hk, Ne.symm hk]
      · simp [dset, getVal, hk, hx, ih]

theorem getVal_addScore (key : String) (inc : ℚ) (d : List (String × ℚ)) (x : String) :
    getVal (addScore d key inc) x =
      if key = x then some ((getVal d x).getD 0 + inc) else getVal d x := by
  induction d with
  | nil => simp [addScore, getVal]
  | cons hd tl ih =>
    obtain ⟨k, w⟩ := hd
    by_cases hk : k = key
    · subst hk
      by_cases hx : k = x
      · subst hx
        simp [addScore, getVal]
      · simp [addScore, getVal, hx]
    · by_cases hx : k = x
      · subst hx
        simp [addScore, getVal, hk, Ne.symm hk]
      · simp [addScore, getVal, hk, hx, ih]

theorem keys_dset {α : Type} (key : String) (v : α) (d : List (String × α)) :
    (dset d key v).map Prod.fst = insKey (d.map Prod.fst) key := by
  induction d with
  | nil => simp [dset, insKey]
  | cons hd tl ih =>
    obtain ⟨k, w⟩ := hd
    by_cases hk : k = key
    · subst hk
      simp [dset, insKey]
    · by_cases hmem : key ∈ tl.map Prod.fst
      · simp [dset, hk, insKey, Ne.symm hk, hmem, ih]
      · simp [dset, hk, insKey, Ne.symm hk, hmem, ih]

theorem keys_addScore (key : String) (inc : ℚ) (d : List (String × ℚ)) :
    (addScore d key inc).map Prod.fst = insKey (d.map Prod.fst) key := by
  induction d with
  | nil => simp [addScore, insKey]
  | cons hd tl ih =>
    obtain ⟨k, w⟩ := hd
    by_cases hk : k = key
    · subst hk
      simp [addScore, insKey]
    · by_cases hmem : key ∈ tl.map Prod.fst
      · simp [addScore, hk, insKey, Ne.symm hk, hmem, ih]
      · simp [addScore, hk, insKey, Ne.symm hk, hmem, ih]

theorem keys_dpop {α : Type} (key : String) (d : List (String × α)) :
    (dpop d key).map Prod.fst = eraseKey (d.map Prod.fst) key := by
  induction d with
  | nil => simp [dpop, eraseKey]
  | cons hd tl ih =>
    obtain ⟨k, w⟩ := hd
    by_cases hk : k = key
    · subst hk
      simp [dpop, eraseKey]
    · simp [dpop, eraseKey, hk, ih]

theorem getVal_isSome_iff {α : Type} (d : List (String × α)) (x : String) :
    (getVal d x).isSome ↔ x ∈ d.map Prod.fst := by
  induction d with
  | nil => simp [getVal]
  | cons hd tl ih =>
    obtain ⟨k, w⟩ := hd
    by_cases hk : k = x
    · subst hk
      simp [getVal]
    · simp [getVal, hk, Ne.symm hk, ih]

theorem getVal_eq_none_iff {α : Type} (d : List (String × α)) (x : String) :
    getVal d x = none ↔ x ∉ d.map Prod.fst := by
  rw [← getVal_isSome_iff]
  cases getVal d x <;> simp

theorem getVal_of_mem_nodup {α : Type} {d : List (String × α)} {x : String} {v : α}
    (hmem : (x, v) ∈ d) (hnd : (d.map Prod.fst).Nodup) : getVal d x = some v := by
  induction d with
  | nil => simp at hmem
  | cons hd tl ih =>
    obtain ⟨k, w⟩ := hd
    simp only [List.map_cons, List.nodup_cons] at hnd
    rcases List.mem_cons.mp hmem with h | h
    · rw [Prod.mk.injEq] at h
      obtain ⟨h1, h2⟩ := h
      subst h1
      subst h2
      simp [getVal]
    · have hx : k ≠ x := by
        intro hkx
        apply hnd.1
        rw [hkx]
        exact List.mem_map.mpr ⟨(x, v), h, rfl⟩
      simp [getVal, hx, ih h hnd.2]

theorem mem_of_getVal {α : Type} {d : List (String × α)} {x : String} {v : α}
    (h : getVal d x = some v) : (x, v) ∈ d := by
  induction d with
  | nil => simp [getVal] at h
  | cons hd tl ih =>
    obtain ⟨k, w⟩ := hd
    by_cases hk : k = x
    · subst hk
      have h' : w = v := by simpa [getVal] using h
      subst h'
      exact List.mem_cons_self _ _
    · simp only [getVal, if_neg hk] at h
      exact List.mem_cons_of_mem _ (ih h)

theorem getVal_dpop_ne {α : Type} {key x : String} (h : key ≠ x) (d : List (String × α)) :
    getVal (dpop d key) x = getVal d x := by
  induction d with
  | nil => simp [dpop]
  | cons hd tl ih =>
    obtain ⟨k, w⟩ := hd
    by_cases hk : k = key
    · subst hk
      simp [dpop, getVal, h]
    · simp [dpop, getVal, hk, ih]

theorem getVal_dpop_self {α : Type} {d : List (String × α)} {key : String}
    (hnd : (d.map Prod.fst).Nodup) : getVal (dpop d key) key = none := by
  induction d with
  | nil => simp [dpop, getVal]
  | cons hd tl ih =>
    obtain ⟨k, w⟩ := hd
    simp only [List.map_cons, List.nodup_cons] at hnd
    by_cases hk : k = key
    · subst hk
      simp only [dpop, if_pos rfl]
      rw [getVal_eq_none_iff]
      exact hnd.1
    · simp [dpop, getVal, hk, ih hnd.2]

theorem dpop_of_not_mem {α : Type} {d : List (String × α)} {key : String}
    (h : key ∉ d.map Prod.fst) : dpop d key = d := by
  induction d with
  | nil => simp [dpop]
  | cons hd tl ih =>
    obtain ⟨k, w⟩ := hd
    simp only [List.map_cons, List.mem_cons] at h
    push_neg at h
    simp [dpop, Ne.symm h.1, ih h.2]

/-! ### Key-list lemmas -/

theorem mem_insKey {ks : List String} {key x : String} :
    x ∈ insKey ks key ↔ x ∈ ks ∨ x = key := by
  by_cases h : key ∈ ks
  · constructor
    · intro hx
      simp only [insKey, if_pos h] at hx
      exact Or.inl hx
    · intro hx
      simp only [insKey, if_pos h]
      rcases hx with hx | hx
      · exact hx
      · exact hx ▸ h
  · simp [insKey, if_neg h]

theorem nodup_insKey {ks : List String} {key : String} (h : ks.Nodup) :
    (insKey ks key).Nodup := by
  by_cases hmem : key ∈ ks
  · simpa [insKey, hmem] using h
  · simp only [insKey, if_neg hmem]
    rw [List.nodup_append]
    exact ⟨h, List.nodup_singleton _, by simpa [List.disjoint_singleton] using hmem⟩

theorem len_insKey_mem {ks : List String} {key : String} (h : key ∈ ks) :
    (insKey ks key).length = ks.length := by
  simp [insKey, h]

theorem len_insKey_not_mem {ks : List String} {key : String} (h : key ∉ ks) :
    (insKey ks key).length = ks.length + 1 := by
  simp [insKey, h]

theorem eraseKey_sublist (key : String) (ks : List String) :
    List.Sublist (eraseKey ks key) ks := by
  induction ks with
  | nil => simp [eraseKey]
  | cons s rest ih =>
    by_cases hs : s = key
    · simpa [eraseKey, hs] using List.sublist_cons_self s rest
    · simpa [eraseKey, hs] using ih.cons₂ s

theorem len_eraseKey_mem {ks : List String} {key : String} (h : key ∈ ks) :
    (eraseKey ks key).length + 1 = ks.length := by
  induction ks with
  | nil => simp at h
  | cons s rest ih =>
    by_cases hs : s = key
    · simp [eraseKey, hs]
    · rcases List.mem_cons.mp h with h' | h'
      · exact absurd h'.symm hs
      · simp [eraseKey, hs, ih h']

theorem not_mem_eraseKey {ks : List String} {key : String} (hnd : ks.Nodup) :
    key ∉ eraseKey ks key := by
  induction ks with
  | nil => simp [eraseKey]
  | cons s rest ih =>
    simp only [List.nodup_cons] at hnd
    by_cases hs : s = key
    · subst hs
      simpa [eraseKey] using hnd.1
    · simp only [eraseKey, if_neg hs, List.mem_cons]
      push_neg
      exact ⟨fun h => hs h.symm, ih hnd.2⟩

theorem mem_accKeys {x : String} : ∀ (ids ks : List String),
    x ∈ accKeys ks ids ↔ x ∈ ks ∨ x ∈ ids
  | [], ks => by simp [accKeys]
  | key :: rest, ks => by
    rw [accKeys, mem_accKeys rest]
    rw [mem_insKey]
    simp only [List.mem_cons]
    tauto

theorem nodup_accKeys : ∀ (ids ks : List String), ks.Nodup → (accKeys ks ids).Nodup
  | [], ks, h => h
  | key :: rest, ks, h => nodup_accKeys rest _ (nodup_insKey h)

theorem accKeys_append (ks xs ys : List String) :
    accKeys ks (xs ++ ys) = accKeys (accKeys ks xs) ys := by
  induction xs generalizing ks with
  | nil => simp [accKeys]
  | cons x rest ih => simp [accKeys, ih]

/-! ### Stable descending sort lemmas -/

theorem perm_insertDesc (x : String × ℚ) (l : List (String × ℚ)) :
    List.Perm (insertDesc x l) (x :: l) := by
  induction l with
  | nil => simp [insertDesc]
  | cons y ys ih =>
    by_cases h : y.2 ≤ x.2
    · simp [insertDesc, h]
    · simp only [insertDesc, if_neg h]
      exact (ih.cons y).trans (List.Perm.swap x y ys)

theorem perm_sortDesc (l : List (String × ℚ)) : List.Perm (sortDesc l) l := by
  induction l with
  | nil => simp [sortDesc]
  | cons x xs ih =>
    simp only [sortDesc]
    exact (perm_insertDesc x (sortDesc xs)).trans (ih.cons x)

theorem mem_sortDesc {p : String × ℚ} {l : List (String × ℚ)} :
    p ∈ sortDesc l ↔ p ∈ l :=
  (perm_sortDesc l).mem_iff

theorem pairwise_insertDesc {x : String × ℚ} {l : List (String × ℚ)}
    (h : l.Pairwise (fun a b => b.2 ≤ a.2)) :
    (insertDesc x l).Pairwise (fun a b => b.2 ≤ a.2) := by
  induction l with
  | nil => simp [insertDesc]
  | cons y ys ih =>
    rcases List.pairwise_cons.mp h with ⟨hy, hys⟩
    by_cases hc : y.2 ≤ x.2
    · simp only [insertDesc, if_pos hc]
      refine List.pairwise_cons.mpr ⟨?_, h⟩
      intro b hb
      rcases List.mem_cons.mp hb with rfl | hb'
      · exact hc
      · exact le_trans (hy b hb') hc
    · simp only [insertDesc, if_neg hc]
      refine List.pairwise_cons.mpr ⟨?_, ih hys⟩
      intro b hb
      rcases List.mem_cons.mp ((perm_insertDesc x ys).mem_iff.mp hb) with rfl | hb'
      · exact le_of_not_le hc
      · exact hy b hb'

theorem pairwise_sortDesc (l : List (String × ℚ)) :
    (sortDesc l).Pairwise (fun a b => b.2 ≤ a.2) := by
  induction l with
  | nil => simp [sortDesc]
  | cons x xs ih =>
    simp only [sortDesc]
    exact pairwise_insertDesc ih

theorem sublist_insertDesc (x : String × ℚ) (l : List (String × ℚ)) :
    List.Sublist l (insertDesc x l) := by
  induction l with
  | nil => simp [insertDesc]
  | cons y ys ih =>
    by_cases h : y.2 ≤ x.2
    · simp only [insertDesc, if_pos h]
      exact List.sublist_cons_self _ _
    · simp only [insertDesc, if_neg h]
      exact ih.cons₂ y

theorem pair_sublist_insertDesc {x q : String × ℚ} {l : List (String × ℚ)}
    (hq : q ∈ l) (hle : q.2 ≤ x.2) :
    List.Sublist [x, q] (insertDesc x l) := by
  induction l with
  | nil => simp at hq
  | cons y ys ih =>
    by_cases h : y.2 ≤ x.2
    · simp only [insertDesc, if_pos h]
      exact (List.singleton_sublist.mpr hq).cons₂ x
    · simp only [insertDesc, if_neg h]
      rcases List.mem_cons.mp hq with rfl | hq'
      · exact absurd hle h
      · exact (ih hq').cons y

theorem pair_sublist_sortDesc {p q : String × ℚ} {l : List (String × ℚ)}
    (h : List.Sublist [p, q] l) (hle : q.2 ≤ p.2) :
    List.Sublist [p, q] (sortDesc l) := by
  induction l with
  | nil => cases h
  | cons x xs ih =>
    simp only [sortDesc]
    cases h with
    | cons _ h' => exact (ih h').trans (sublist_insertDesc x (sortDesc xs))
    | cons₂ _ h' =>
      exact pair_sublist_insertDesc (mem_sortDesc.mpr (List.singleton_sublist.mp h')) hle

/-! ### Least-recently-used key lemmas -/

theorem minKeyAux_spec (rest : List (String × ℤ)) (bk : String) (bv : ℤ) :
    ∃ v, v ≤ bv ∧ (∀ p ∈ rest, v ≤ p.2) ∧
      ((minKeyAux bk bv rest = bk ∧ v = bv) ∨ (minKeyAux bk bv rest, v) ∈ rest) := by
  induction rest generalizing bk bv with
  | nil => exact ⟨bv, le_refl _, by simp, Or.inl ⟨rfl, rfl⟩⟩
  | cons hd rest ih =>
    obtain ⟨k, w⟩ := hd
    by_cases h : w < bv
    · obtain ⟨v, hvw, hall, hor⟩ := ih k w
      refine ⟨v, le_trans hvw (le_of_lt h), ?_, ?_⟩
      · intro p hp
        rcases List.mem_cons.mp hp with rfl | hp'
        · exact hvw
        · exact hall p hp'
      · simp only [minKeyAux, if_pos h]
        rcases hor with ⟨h1, h2⟩ | h1
        · exact Or.inr (by rw [h1, h2]; exact List.mem_cons_self _ _)
        · exact Or.inr (List.mem_cons_of_mem _ h1)
    · obtain ⟨v, hvb, hall, hor⟩ := ih bk bv
      refine ⟨v, hvb, ?_, ?_⟩
      · intro p hp
        rcases List.mem_cons.mp hp with rfl | hp'
        · exact le_trans hvb (le_of_not_lt h)
        · exact hall p hp'
      · simp only [minKeyAux, if_neg h]
        rcases hor with ⟨h1, h2⟩ | h1
        · exact Or.inl ⟨h1, h2⟩
        · exact Or.inr (List.mem_cons_of_mem _ h1)

theorem minKey_spec {d : List (String × ℤ)} {k : String} (h : minKey d = some k) :
    ∃ v, (k, v) ∈ d ∧ ∀ p ∈ d, v ≤ p.2 := by
  cases d with
  | nil => simp [minKey] at h
  | cons hd rest =>
    obtain ⟨k0, v0⟩ := hd
    simp only [minKey, Option.some.injEq] at h
    obtain ⟨v, hvb, hall, hor⟩ := minKeyAux_spec rest k0 v0
    subst h
    refine ⟨v, ?_, ?_⟩
    · rcases hor with ⟨h1, h2⟩ | h1
      · rw [h1, h2]
        exact List.mem_cons_self _ _
      · exact List.mem_cons_of_mem _ h1
    · intro p hp
      rcases List.mem_cons.mp hp with rfl | hp'
      · exact hvb
      · exact hall p hp'

theorem minKey_isSome {d : List (String × ℤ)} (h : d ≠ []) : (minKey d).isSome := by
  cases d with
  | nil => exact absurd rfl h
  | cons hd rest => simp [minKey]

/-! ### Fusion accumulation lemmas -/

theorem keys_processFrom (k : ℚ) (docs : List SearchResult) :
    ∀ (i : ℕ) (scores : List (String × ℚ)) (info : List (String × SearchResult)),
      (processFrom k i docs (scores, info)).1.map Prod.fst =
          accKeys (scores.map Prod.fst) (docs.map SearchResult.chunk_id) ∧
        (processFrom k i docs (scores, info)).2.map Prod.fst =
          accKeys (info.map Prod.fst) (docs.map SearchResult.chunk_id) := by
  induction docs with
  | nil =>
    intro i scores info
    simp [processFrom, accKeys]
  | cons d rest ih =>
    intro i scores info
    simp only [processFrom, List.map_cons, accKeys]
    rw [← keys_addScore d.chunk_id (1 / (k + (i : ℚ) + 1)) scores, ← keys_dset d.chunk_id d info]
    exact ih (i + 1) _ _

theorem scoreD_processFrom (k : ℚ) (docs : List SearchResult) (x : String) :
    ∀ (i : ℕ) (scores : List (String × ℚ)) (info : List (String × SearchResult)),
      (getVal (processFrom k i docs (scores, info)).1 x).getD 0 =
        (getVal scores x).getD 0 + contribFrom k i docs x := by
  induction docs with
  | nil =>
    intro i scores info
    simp [processFrom, contribFrom]
  | cons d rest ih =>
    intro i scores info
    simp only [processFrom, contribFrom]
    rw [ih (i + 1), getVal_addScore]
    by_cases h : d.chunk_id = x
    · rw [if_pos h, if_pos h]
      simp only [Option.getD_some]
      ring
    · rw [if_neg h, if_neg h]
      ring

theorem info_processFrom (k : ℚ) (docs : List SearchResult) (x : String) :
    ∀ (i : ℕ) (scores : List (String × ℚ)) (info : List (String × SearchResult)),
      getVal (processFrom k i docs (scores, info)).2 x =
        (lastDoc docs x).or (getVal info x) := by
  induction docs with
  | nil =>
    intro i scores info
    simp [processFrom, lastDoc]
  | cons d rest ih =>
    intro i scores info
    simp only [processFrom, lastDoc]
    rw [ih (i + 1)]
    cases hld : lastDoc rest x with
    | some d' => simp
    | none =>
      rw [getVal_dset]
      by_cases h : d.chunk_id = x <;> simp [h]

theorem lastDoc_chunk_id {docs : List SearchResult} {x : String} {d : SearchResult}
    (h : lastDoc docs x = some d) : d.chunk_id = x := by
  induction docs with
  | nil => simp [lastDoc] at h
  | cons d0 rest ih =>
    simp only [lastDoc] at h
    cases hld : lastDoc rest x with
    | some d' =>
      rw [hld] at h
      injection h with h'
      subst h'
      exact ih hld
    | none =>
      rw [hld] at h
      by_cases hc : d0.chunk_id = x
      · rw [if_pos hc] at h
        injection h with h'
        subst h'
        exact hc
      · rw [if_neg hc] at h
        simp at h

theorem lastDoc_isSome_iff {docs : List SearchResult} {x : String} :
    (lastDoc docs x).isSome ↔ x ∈ docs.map SearchResult.chunk_id := by
  induction docs with
  | nil => simp [lastDoc]
  | cons d rest ih =>
    simp only [lastDoc, List.map_cons, List.mem_cons]
    cases hld : lastDoc rest x with
    | some d' =>
      simp only [Option.isSome_some, true_iff]
      exact Or.inr (ih.mp (by simp [hld]))
    | none =>
      have hx : x ∉ rest.map SearchResult.chunk_id := by
        intro hmem
        have hsome := ih.mpr hmem
        rw [hld] at hsome
        simp at hsome
      by_cases hc : d.chunk_id = x
      · simp [if_pos hc, hc]
      · simp only [if_neg hc, Option.isSome_none, Bool.false_eq_true, false_iff]
        push_neg
        exact ⟨fun h => hc h.symm, hx⟩

theorem lastDoc_append (xs ys : List SearchResult) (x : String) :
    lastDoc (xs ++ ys) x = (lastDoc ys x).or (lastDoc xs x) := by
  induction xs with
  | nil => cases hld : lastDoc ys x <;> simp [lastDoc, hld]
  | cons d rest ih =>
    cases hld : lastDoc ys x <;> cases hld2 : lastDoc rest x <;>
      simp [List.cons_append, lastDoc, ih, hld, hld2]

/-! ### Rank and contribution lemmas -/

theorem contribFrom_of_not_mem {docs : List SearchResult} {x : String}
    (h : x ∉ docs.map SearchResult.chunk_id) (k : ℚ) : ∀ i, contribFrom k i docs x = 0 := by
  induction docs with
  | nil => intro i; simp [contribFrom]
  | cons d rest ih =>
    intro i
    simp only [List.map_cons, List.mem_cons] at h
    push_neg at h
    simp [contribFrom, Ne.symm h.1, ih h.2]

theorem rankOf_pos {docs : List SearchResult} {x : String} {r : ℕ}
    (h : rankOf docs x = some r) : 1 ≤ r := by
  induction docs generalizing r with
  | nil => simp [rankOf] at h
  | cons d rest ih =>
    by_cases hc : d.chunk_id = x
    · simp only [rankOf, if_pos hc, Option.some.injEq] at h
      omega
    · simp only [rankOf, if_neg hc] at h
      cases hr : rankOf rest x with
      | none => rw [hr] at h; simp at h
      | some r' =>
        rw [hr] at h
        simp only [Option.map_some', Option.some.injEq] at h
        omega

theorem rankOf_none_iff {docs : List SearchResult} {x : String} :
    rankOf docs x = none ↔ x ∉ docs.map SearchResult.chunk_id := by
  induction docs with
  | nil => simp [rankOf]
  | cons d rest ih =>
    by_cases hc : d.chunk_id = x
    · simp [rankOf, hc]
    · simp only [rankOf, if_neg hc, List.map_cons, List.mem_cons]
      cases hr : rankOf rest x with
      | none =>
        simp only [Option.map_none', true_iff]
        push_neg
        exact ⟨fun h => hc h.symm, (ih.mp hr)⟩
      | some r' =>
        simp only [Option.map_some']
        constructor
        · intro h
          simp at h
        · intro h
          push_neg at h
          exact absurd (ih.mpr h.2) (by rw [hr]; simp)

theorem contribFrom_rank (k : ℚ) :
    ∀ (docs : List SearchResult) (x : String) (r i : ℕ),
      (docs.map SearchResult.chunk_id).Nodup → rankOf docs x = some r →
      contribFrom k i docs x = 1 / (k + (i : ℚ) + (r : ℚ))
  | [], x, r, i, _, h => by simp [rankOf] at h
  | d :: rest, x, r, i, hnd, h => by
    simp only [List.map_cons, List.nodup_cons] at hnd
    by_cases hc : d.chunk_id = x
    · simp only [rankOf, if_pos hc, Option.some.injEq] at h
      have hx : x ∉ rest.map SearchResult.chunk_id := hc ▸ hnd.1
      simp only [contribFrom, if_pos hc, contribFrom_of_not_mem hx k (i + 1)]
      rw [← h]
      push_cast
      ring
    · simp only [rankOf, if_neg hc] at h
      cases hr : rankOf rest x with
      | none => rw [hr] at h; simp at h
      | some r' =>
        rw [hr] at h
        simp only [Option.map_some', Option.some.injEq] at h
        rw [contribFrom, if_neg hc, contribFrom_rank k rest x r' (i + 1) hnd.2 hr, ← h]
        push_cast
        ring

theorem contribFrom_zero_eq_contrib (k : ℚ) {docs : List SearchResult} {x : String}
    (hnd : (docs.map SearchResult.chunk_id).Nodup) :
    contribFrom k 0 docs x = contrib k docs x := by
  cases hr : rankOf docs x with
  | some r =>
    rw [contribFrom_rank k docs x r 0 hnd hr]
    simp [contrib, hr]
  | none =>
    rw [contribFrom_of_not_mem (rankOf_none_iff.mp hr) k 0]
    simp [contrib, hr]

/-! ### Output-building lemmas -/

theorem filterMap_info {info : List (String × SearchResult)}
    (hwf : ∀ s d, getVal info s = some d → d.chunk_id = s) :
    ∀ (l : List (String × ℚ)), (∀ p ∈ l, (getVal info p.1).isSome) →
      ((l.filterMap (fun p => (getVal info p.1).map (fun doc => (doc, p.2)))).map
          (fun q => q.1.chunk_id) = l.map Prod.fst) ∧
        ((l.filterMap (fun p => (getVal info p.1).map (fun doc => (doc, p.2)))).map
          Prod.snd = l.map Prod.snd)
  | [], _ => by simp
  | p :: rest, h => by
    obtain ⟨d, hd⟩ := Option.isSome_iff_exists.mp (h p (List.mem_cons_self _ _))
    have hrest := filterMap_info hwf rest (fun q hq => h q (List.mem_cons_of_mem _ hq))
    simp only [List.filterMap_cons, hd, Option.map_some', List.map_cons]
    exact ⟨by rw [hrest.1, hwf _ _ hd], by rw [hrest.2]⟩

/-! ### Fusion state lemmas -/

theorem fusionState_keys (e b d : List SearchResult) (k : ℚ) :
    (fusionState e b d k).1.map Prod.fst =
        accKeys [] (e.map SearchResult.chunk_id ++ b.map SearchResult.chunk_id ++
          d.map SearchResult.chunk_id) ∧
      (fusionState e b d k).2.map Prod.fst =
        accKeys [] (e.map SearchResult.chunk_id ++ b.map SearchResult.chunk_id ++
          d.map SearchResult.chunk_id) := by
  obtain ⟨h1a, h1b⟩ := keys_processFrom k e 0 [] []
  obtain ⟨h2a, h2b⟩ :=
    keys_processFrom k b 0 (processFrom k 0 e ([], [])).1 (processFrom k 0 e ([], [])).2
  obtain ⟨h3a, h3b⟩ :=
    keys_processFrom k d 0 (processFrom k 0 b (processFrom k 0 e ([], []))).1
      (processFrom k 0 b (processFrom k 0 e ([], []))).2
  simp only [Prod.mk.eta] at h2a h2b h3a h3b
  simp only [List.map_nil] at h1a h1b
  rw [accKeys_append, accKeys_append]
  constructor
  · rw [fusionState, h3a, h2a, h1a]
  · rw [fusionState, h3b, h2b, h1b]

theorem fusionState_score (e b d : List SearchResult) (k : ℚ) (x : String) :
    (getVal (fusionState e b d k).1 x).getD 0 =
      contribFrom k 0 e x + contribFrom k 0 b x + contribFrom k 0 d x := by
  have h1 := scoreD_processFrom k e x 0 [] []
  have h2 := scoreD_processFrom k b x 0
    (processFrom k 0 e ([], [])).1 (processFrom k 0 e ([], [])).2
  have h3 := scoreD_processFrom k d x 0
    (processFrom k 0 b (processFrom k 0 e ([], []))).1
    (processFrom k 0 b (processFrom k 0 e ([], []))).2
  simp only [Prod.mk.eta] at h2 h3
  rw [fusionState, h3, h2, h1]
  simp [getVal]

theorem fusionState_info (e b d : List SearchResult) (k : ℚ) (x : String) :
    getVal (fusionState e b d k).2 x = lastDoc (e ++ b ++ d) x := by
  have h1 := info_processFrom k e x 0 [] []
  have h2 := info_processFrom k b x 0
    (processFrom k 0 e ([], [])).1 (processFrom k 0 e ([], [])).2
  have h3 := info_processFrom k d x 0
    (processFrom k 0 b (processFrom k 0 e ([], []))).1
    (processFrom k 0 b (processFrom k 0 e ([], []))).2
  simp only [Prod.mk.eta] at h2 h3
  rw [fusionState, h3, h2, h1, lastDoc_append, lastDoc_append]
  simp [getVal]

theorem fusionState_nodup (e b d : List SearchResult) (k : ℚ) :
    ((fusionState e b d k).1.map Prod.fst).Nodup := by
  rw [(fusionState_keys e b d k).1]
  exact nodup_accKeys _ [] List.nodup_nil

theorem fusionState_info_wf (e b d : List SearchResult) (k : ℚ) :
    ∀ (s : String) (dd : SearchResult),
      getVal (fusionState e b d k).2 s = some dd → dd.chunk_id = s := by
  intro s dd h
  rw [fusionState_info] at h
  exact lastDoc_chunk_id h

theorem fusionState_lookup_isSome (e b d : List SearchResult) (k : ℚ)
    {p : String × ℚ} (hp : p ∈ sortDesc (fusionState e b d k).1) :
    (getVal (fusionState e b d k).2 p.1).isSome := by
  rw [getVal_isSome_iff, (fusionState_keys e b d k).2, ← (fusionState_keys e b d k).1]
  exact List.mem_map.mpr ⟨p, mem_sortDesc.mp hp, rfl⟩

theorem rrf_out_maps (e b d : List SearchResult) (k : ℚ) :
    ((reciprocal_rank_fusion e b d k).map (fun q => q.1.chunk_id) =
        (sortDesc (fusionState e b d k).1).map Prod.fst) ∧
      ((reciprocal_rank_fusion e b d k).map Prod.snd =
        (sortDesc (fusionState e b d k).1).map Prod.snd) :=
  filterMap_info (fusionState_info_wf e b d k) (sortDesc (fusionState e b d k).1)
    (fun _ hp => fusionState_lookup_isSome e b d k hp)

theorem rrf_score_eq {e b d : List SearchResult} {k : ℚ} {f : SearchResult × ℚ}
    (hf : f ∈ reciprocal_rank_fusion e b d k) :
    f.2 = contribFrom k 0 e f.1.chunk_id + contribFrom k 0 b f.1.chunk_id +
      contribFrom k 0 d f.1.chunk_id := by
  obtain ⟨p, hp, hmap⟩ := List.mem_filterMap.mp hf
  obtain ⟨doc, hdoc, heq⟩ := Option.map_eq_some'.mp hmap
  have hcid : doc.chunk_id = p.1 := fusionState_info_wf e b d k p.1 doc hdoc
  have hmem : p ∈ (fusionState e b d k).1 := mem_sortDesc.mp hp
  have hval : getVal (fusionState e b d k).1 p.1 = some p.2 := by
    have : (p.1, p.2) ∈ (fusionState e b d k).1 := by
      rw [Prod.mk.eta]
      exact hmem
    exact getVal_of_mem_nodup this (fusionState_nodup e b d k)
  have hscore := fusionState_score e b d k p.1
  rw [hval] at hscore
  simp only [Option.getD_some] at hscore
  rw [← heq]
  simp only [hcid]
  exact hscore

theorem rrf_mem_ids (e b d : List SearchResult) (k : ℚ) (x : String) :
    x ∈ (reciprocal_rank_fusion e b d k).map (fun q => q.1.chunk_id) ↔
      x ∈ e.map SearchResult.chunk_id ∨ x ∈ b.map SearchResult.chunk_id ∨
        x ∈ d.map SearchResult.chunk_id := by
  rw [(rrf_out_maps e b d k).1]
  constructor
  · intro h
    obtain ⟨p, hp, hpx⟩ := List.mem_map.mp h
    have : p ∈ (fusionState e b d k).1 := mem_sortDesc.mp hp
    have hmem : x ∈ ((fusionState e b d k).1).map Prod.fst :=
      List.mem_map.mpr ⟨p, this, hpx⟩
    rw [(fusionState_keys e b d k).1] at hmem
    rcases (mem_accKeys _ _).mp hmem with h0 | h0
    · simp at h0
    · rcases List.mem_append.mp h0 with h1 | h1
      · rcases List.mem_append.mp h1 with h2 | h2
        · exact Or.inl h2
        · exact Or.inr (Or.inl h2)
      · exact Or.inr (Or.inr h1)
  · intro h
    have hmem : x ∈ ((fusionState e b d k).1).map Prod.fst := by
      rw [(fusionState_keys e b d k).1]
      apply (mem_accKeys _ _).mpr
      refine Or.inr ?_
      rcases h with h | h | h
      · exact List.mem_append.mpr (Or.inl (List.mem_append.mpr (Or.inl h)))
      · exact List.mem_append.mpr (Or.inl (List.mem_append.mpr (Or.inr h)))
      · exact List.mem_append.mpr (Or.inr h)
    obtain ⟨p, hp, hpx⟩ := List.mem_map.mp hmem
    exact List.mem_map.mpr ⟨p, mem_sortDesc.mpr hp, hpx⟩

/-! ### Cache lemmas -/

theorem insKey_of_mem {ks : List String} {key : String} (h : key ∈ ks) :
    insKey ks key = ks := by
  simp [insKey, h]

theorem keysAligned_removeKey {c : EmbeddingCache} (h : KeysAligned c) (key : String) :
    KeysAligned (removeKey c key) := by
  obtain ⟨h1, h2, h3⟩ := h
  refine ⟨?_, ?_, ?_⟩
  · simp only [removeKey, keys_dpop, h1]
  · simp only [removeKey, keys_dpop, h2]
  · simp only [removeKey, keys_dpop]
    exact List.Nodup.sublist (eraseKey_sublist key _) h3

theorem removeKey_max_size (c : EmbeddingCache) (key : String) :
    (removeKey c key).max_size = c.max_size := rfl

theorem length_removeKey_mem {c : EmbeddingCache} {key : String}
    (hmem : key ∈ c.cache.map Prod.fst) :
    (removeKey c key).cache.length + 1 = c.cache.length := by
  have h1 : (removeKey c key).cache.length = ((removeKey c key).cache.map Prod.fst).length :=
    (List.length_map _ _).symm
  have h2 : c.cache.length = (c.cache.map Prod.fst).length := (List.length_map _ _).symm
  rw [h1, h2]
  simp only [removeKey, keys_dpop]
  exact len_eraseKey_mem hmem

theorem evict_lru_spec {c : EmbeddingCache} (h : KeysAligned c) (hne : c.cache ≠ []) :
    ∃ lru v, minKey c.access_times = some lru ∧ evict_lru c = removeKey c lru ∧
      (lru, v) ∈ c.access_times ∧ (∀ p ∈ c.access_times, v ≤ p.2) ∧
      lru ∈ c.cache.map Prod.fst := by
  have hat : c.access_times ≠ [] := by
    intro hnil
    apply hne
    have := h.1
    rw [hnil] at this
    simp only [List.map_nil, List.map_eq_nil_iff] at this
    exact this
  obtain ⟨lru, hlru⟩ := Option.isSome_iff_exists.mp (minKey_isSome hat)
  obtain ⟨v, hmem, hmin⟩ := minKey_spec hlru
  refine ⟨lru, v, hlru, ?_, hmem, hmin, ?_⟩
  · simp [evict_lru, hlru]
  · rw [h.1]
    exact List.mem_map.mpr ⟨(lru, v), hmem, rfl⟩

theorem evict_lru_max_size (c : EmbeddingCache) : (evict_lru c).max_size = c.max_size := by
  rw [evict_lru]
  cases minKey c.access_times <;> rfl

theorem evict_lru_ttl (c : EmbeddingCache) : (evict_lru c).ttl_seconds = c.ttl_seconds := by
  rw [evict_lru]
  cases minKey c.access_times <;> rfl

theorem evictLoop_max_size : ∀ (fuel : ℕ) (c : EmbeddingCache),
    (evictLoop fuel c).max_size = c.max_size
  | 0, c => rfl
  | fuel + 1, c => by
    by_cases h : c.max_size ≤ c.cache.length
    · simp only [evictLoop, if_pos h]
      rw [evictLoop_max_size fuel (evict_lru c), evict_lru_max_size]
    · simp only [evictLoop, if_neg h]

theorem evictLoop_ttl : ∀ (fuel : ℕ) (c : EmbeddingCache),
    (evictLoop fuel c).ttl_seconds = c.ttl_seconds
  | 0, c => rfl
  | fuel + 1, c => by
    by_cases h : c.max_size ≤ c.cache.length
    · simp only [evictLoop, if_pos h]
      rw [evictLoop_ttl fuel (evict_lru c), evict_lru_ttl]
    · simp only [evictLoop, if_neg h]

theorem evictLoop_spec : ∀ (fuel : ℕ) (c : EmbeddingCache), KeysAligned c →
    c.cache.length ≤ fuel → 1 ≤ c.max_size →
    KeysAligned (evictLoop fuel c) ∧ (evictLoop fuel c).cache.length < c.max_size := by
  intro fuel
  induction fuel with
  | zero =>
    intro c h hlen hpos
    simp only [evictLoop]
    exact ⟨h, by omega⟩
  | succ fuel ih =>
    intro c h hlen hpos
    by_cases hc : c.max_size ≤ c.cache.length
    · simp only [evictLoop, if_pos hc]
      have hne : c.cache ≠ [] := by
        intro hnil
        rw [hnil] at hc
        simp only [List.length_nil] at hc
        omega
      obtain ⟨lru, v, hlru, heq, _, _, hmemc⟩ := evict_lru_spec h hne
      have hlen' : (evict_lru c).cache.length + 1 = c.cache.length := by
        rw [heq]
        exact length_removeKey_mem hmemc
      have hka : KeysAligned (evict_lru c) := by
        rw [heq]
        exact keysAligned_removeKey h lru
      have hres := ih (evict_lru c) hka (by omega) (by rw [evict_lru_max_size]; exact hpos)
      refine ⟨hres.1, ?_⟩
      have := hres.2
      rwa [evict_lru_max_size] at this
    · simp only [evictLoop, if_neg hc]
      exact ⟨h, by omega⟩

theorem evictLoop_of_lt : ∀ (fuel : ℕ) {c : EmbeddingCache},
    c.cache.length < c.max_size → evictLoop fuel c = c
  | 0, _, _ => rfl
  | fuel + 1, c, h => by
    simp only [evictLoop, if_neg (not_le.mpr h)]

theorem evictLoop_of_full {c : EmbeddingCache} (h : KeysAligned c)
    (hfull : c.cache.length = c.max_size) (hpos : 1 ≤ c.max_size) :
    ∃ lru v, minKey c.access_times = some lru ∧ (lru, v) ∈ c.access_times ∧
      (∀ p ∈ c.access_times, v ≤ p.2) ∧
      evictLoop c.cache.length c = removeKey c lru := by
  have hne : c.cache ≠ [] := by
    intro hnil
    rw [hnil] at hfull
    simp only [List.length_nil] at hfull
    omega
  obtain ⟨lru, v, hlru, heq, hmem, hmin, hmemc⟩ := evict_lru_spec h hne
  refine ⟨lru, v, hlru, hmem, hmin, ?_⟩
  cases hl : c.cache.length with
  | zero => exact absurd (List.length_eq_zero.mp hl) hne
  | succ n =>
    have hcond : c.max_size ≤ c.cache.length := le_of_eq hfull.symm
    simp only [evictLoop, if_pos hcond, heq]
    apply evictLoop_of_lt
    have hlen' : (removeKey c lru).cache.length + 1 = c.cache.length :=
      length_removeKey_mem hmemc
    rw [removeKey_max_size]
    omega

theorem keysAligned_storeEntry {c : EmbeddingCache} (h : KeysAligned c)
    (key : String) (emb : List ℚ) (now : ℤ) : KeysAligned (storeEntry c key emb now) := by
  obtain ⟨h1, h2, h3⟩ := h
  refine ⟨?_, ?_, ?_⟩
  · simp only [storeEntry, keys_dset, h1]
  · simp only [storeEntry, keys_dset, h2]
  · simp only [storeEntry, keys_dset]
    exact nodup_insKey h3

theorem length_storeEntry_le (c : EmbeddingCache) (key : String) (emb : List ℚ) (now : ℤ) :
    (storeEntry c key emb now).cache.length ≤ c.cache.length + 1 := by
  have h1 : (storeEntry c key emb now).cache.length =
      ((storeEntry c key emb now).cache.map Prod.fst).length := (List.length_map _ _).symm
  rw [h1]
  simp only [storeEntry, keys_dset]
  by_cases hmem : key ∈ c.cache.map Prod.fst
  · rw [len_insKey_mem hmem]
    simp
  · rw [len_insKey_not_mem hmem]
    simp

theorem put_inv {c : EmbeddingCache} (h : CacheInv c) (hpos : 1 ≤ c.max_size)
    (t : String) (emb : List ℚ) (now : ℤ) : CacheInv (put c t emb now) := by
  obtain ⟨h1, h2, h3, _⟩ := h
  obtain ⟨hka, hlt⟩ := evictLoop_spec c.cache.length c ⟨h1, h2, h3⟩ (le_refl _) hpos
  have hs := keysAligned_storeEntry hka t emb now
  refine ⟨hs.1, hs.2.1, hs.2.2, ?_⟩
  have hlen := length_storeEntry_le (evictLoop c.cache.length c) t emb now
  show (storeEntry (evictLoop c.cache.length c) t emb now).cache.length ≤
    (storeEntry (evictLoop c.cache.length c) t emb now).max_size
  have hms : (storeEntry (evictLoop c.cache.length c) t emb now).max_size = c.max_size :=
    evictLoop_max_size c.cache.length c
  rw [hms]
  omega

theorem put_max_size (c : EmbeddingCache) (t : String) (emb : List ℚ) (now : ℤ) :
    (put c t emb now).max_size = c.max_size := by
  simp only [put, storeEntry]
  exact evictLoop_max_size _ _

theorem put_ttl (c : EmbeddingCache) (t : String) (emb : List ℚ) (now : ℤ) :
    (put c t emb now).ttl_seconds = c.ttl_seconds := by
  simp only [put, storeEntry]
  exact evictLoop_ttl _ _

theorem get_inv {c : EmbeddingCache} (h : CacheInv c) (t : String) (now : ℤ) :
    CacheInv (get c t now).2 := by
  obtain ⟨h1, h2, h3, h4⟩ := h
  rw [get]
  cases hv : getVal c.cache t with
  | none => exact ⟨h1, h2, h3, h4⟩
  | some v =>
    by_cases hexp : isExpired c t now
    · simp only [if_pos hexp]
      have hka := keysAligned_removeKey (c := c) ⟨h1, h2, h3⟩ t
      refine ⟨hka.1, hka.2.1, hka.2.2, ?_⟩
      have : List.Sublist ((removeKey c t).cache.map Prod.fst) (c.cache.map Prod.fst) := by
        simp only [removeKey, keys_dpop]
        exact eraseKey_sublist t _
      have hle := this.length_le
      simp only [List.length_map] at hle
      simp only [removeKey] at hle ⊢
      omega
    · simp only [if_neg hexp]
      have hmem : t ∈ c.cache.map Prod.fst := by
        rw [← getVal_isSome_iff]
        simp [hv]
      refine ⟨?_, h2, h3, h4⟩

      simp only [keys_dset]
      rw [insKey_of_mem (h1 ▸ hmem), h1]

theorem get_max_size (c : EmbeddingCache) (t : String) (now : ℤ) :
    (get c t now).2.max_size = c.max_size := by
  rw [get]
  cases getVal c.cache t with
  | none => rfl
  | some v =>
    by_cases hexp : isExpired c t now
    · simp only [if_pos hexp]
      rfl
    · simp only [if_neg hexp]

theorem get_ttl (c : EmbeddingCache) (t : String) (now : ℤ) :
    (get c t now).2.ttl_seconds = c.ttl_seconds := by
  rw [get]
  cases getVal c.cache t with
  | none => rfl
  | some v =>
    by_cases hexp : isExpired c t now
    · simp only [if_pos hexp]
      rfl
    · simp only [if_neg hexp]

theorem applyOp_inv {c : EmbeddingCache} (h : CacheInv c) (hpos : 1 ≤ c.max_size)
    (op : CacheOp) : CacheInv (applyOp c op) := by
  cases op with
  | opGet t now => exact get_inv h t now
  | opPut t emb now => exact put_inv h hpos t emb now
  | opClear => exact ⟨rfl, rfl, List.nodup_nil, by simp [applyOp, clear]⟩

theorem applyOp_max_size (c : EmbeddingCache) (op : CacheOp) :
    (applyOp c op).max_size = c.max_size := by
  cases op with
  | opGet t now => exact get_max_size c t now
  | opPut t emb now => exact put_max_size c t emb now
  | opClear => rfl

theorem runOps_inv : ∀ (ops : List CacheOp) (c : EmbeddingCache),
    CacheInv c → 1 ≤ c.max_size →
    CacheInv (runOps c ops) ∧ (runOps c ops).max_size = c.max_size
  | [], c, h, _ => ⟨h, rfl⟩
  | op :: ops, c, h, hpos => by
    have hstep := applyOp_inv h hpos op
    have hms := applyOp_max_size c op
    have hres := runOps_inv ops (applyOp c op) hstep (hms ▸ hpos)
    refine ⟨hres.1, ?_⟩
    rw [runOps] at hres ⊢
    simp only [List.foldl_cons]
    rw [hres.2, hms]

/-! ### Claim theorems -/

/-- C1: the claim says an unrecognized strategy_mode is signalled to the
caller as an invalid-argument error, never a defaulted empty result.  The
source raises ValueError inside search's try block, but the blanket except
handler at the end of search catches it and returns an empty list, so the
caller observes [] — exactly the degraded-empty result the claim (and the
repo's own test test_search_invalid_mode, which expects the ValueError to
escape) rules out.  This theorem evaluates the code at the failing input:
the inner body raises the invalid-argument error, and the caller-visible
result is the empty list. -/
theorem claim_C1 (b : Backends) (mode : String) (top_k : ℕ)
    (h1 : mode ≠ "elser") (h2 : mode ≠ "hybrid") :
    searchInner b mode top_k = Except.error ("Unknown search mode: " ++ mode) ∧
      search b mode top_k = [] := by
  constructor
  · simp [searchInner, h1, h2]
  · simp [search, searchInner, h1, h2]

/-- Witness for C1 at the failing input of the repo's test: mode invalid,
top_k 5, healthy backends. -/
theorem claim_C1_witness :
    searchInner ⟨fun _ => .ok [], fun _ => .ok [], .ok [], fun _ => .ok []⟩ "invalid" 5 =
        Except.error ("Unknown search mode: " ++ "invalid") ∧
      search ⟨fun _ => .ok [], fun _ => .ok [], .ok [], fun _ => .ok []⟩ "invalid" 5 = [] :=
  claim_C1 _ "invalid" 5 (by decide) (by decide)

/-- C5: a text stored at time T0 with TTL ttl is returned by get at any time
up to and including T0 + ttl (in particular at T0 + ttl - 1); a get strictly
after T0 + ttl returns absent, removes the entry from all three dicts, and
counts as a miss for the hit counter of _generate_query_embedding. -/
theorem claim_C5 (c : EmbeddingCache) (text : String) (v : List ℚ) (t0 now : ℤ)
    (hInv : CacheInv c) (hv : getVal c.cache text = some v)
    (ht : getVal c.creation_times text = some t0) :
    (t0 + c.ttl_seconds < now →
      (get c text now).1 = none ∧
        hitIncrement (get c text now).1 = 0 ∧
        getVal (get c text now).2.cache text = none ∧
        getVal (get c text now).2.access_times text = none ∧
        getVal (get c text now).2.creation_times text = none) ∧
      (now ≤ t0 + c.ttl_seconds → (get c text now).1 = some v) := by
  obtain ⟨h1, h2, h3, _⟩ := hInv
  have hexp_iff : isExpired c text now = true ↔ t0 + c.ttl_seconds < now := by
    rw [isExpired, ht]
    simp only [decide_eq_true_eq]
    omega
  constructor
  · intro hlt
    have hexp : isExpired c text now = true := hexp_iff.mpr hlt
    rw [get, hv]
    simp only [if_pos hexp, hitIncrement, Option.isSome_none, Bool.false_eq_true,
      if_false, and_true, true_and, eq_self_iff_true]
    exact ⟨getVal_dpop_self h3, getVal_dpop_self (h1 ▸ h3), getVal_dpop_self (h2 ▸ h3)⟩
  · intro hle
    have hexp : ¬ isExpired c text now = true := by
      rw [hexp_iff]
      omega
    rw [get, hv]
    simp only [if_neg hexp]

/-- Witness for C5: entry stored at time 5 with ttl 100 in a singleton
cache; a get at time 106 misses and removes it, a get at time 104
(T0 + ttl - 1) returns the stored vector. -/
theorem claim_C5_witness :
    CacheInv ⟨10, 100, [("x", [1])], [("x", 5)], [("x", 5)]⟩ ∧
      getVal (EmbeddingCache.cache ⟨10, 100, [("x", [1])], [("x", 5)], [("x", 5)]⟩) "x" =
        some [1] ∧
      getVal (EmbeddingCache.creation_times ⟨10, 100, [("x", [1])], [("x", 5)], [("x", 5)]⟩)
        "x" = some 5 ∧
      ((5 + (100 : ℤ) < 106 →
        (get ⟨10, 100, [("x", [1])], [("x", 5)], [("x", 5)]⟩ "x" 106).1 = none ∧
          hitIncrement (get ⟨10, 100, [("x", [1])], [("x", 5)], [("x", 5)]⟩ "x" 106).1 = 0 ∧
          getVal (get ⟨10, 100, [("x", [1])], [("x", 5)], [("x", 5)]⟩ "x" 106).2.cache "x" =
            none ∧
          getVal (get ⟨10, 100, [("x", [1])], [("x", 5)], [("x", 5)]⟩ "x"
            106).2.access_times "x" = none ∧
          getVal (get ⟨10, 100, [("x", [1])], [("x", 5)], [("x", 5)]⟩ "x"
            106).2.creation_times "x" = none) ∧
        (106 ≤ 5 + (100 : ℤ) →
          (get ⟨10, 100, [("x", [1])], [("x", 5)], [("x", 5)]⟩ "x" 106).1 = some [1])) ∧
      ((5 + (100 : ℤ) < 104 →
        (get ⟨10, 100, [("x", [1])], [("x", 5)], [("x", 5)]⟩ "x" 104).1 = none ∧
          hitIncrement (get ⟨10, 100, [("x", [1])], [("x", 5)], [("x", 5)]⟩ "x" 104).1 = 0 ∧
          getVal (get ⟨10, 100, [("x", [1])], [("x", 5)], [("x", 5)]⟩ "x" 104).2.cache "x" =
            none ∧
          getVal (get ⟨10, 100, [("x", [1])], [("x", 5)], [("x", 5)]⟩ "x"
            104).2.access_times "x" = none ∧
          getVal (get ⟨10, 100, [("x", [1])], [("x", 5)], [("x", 5)]⟩ "x"
            104).2.creation_times "x" = none) ∧
        (104 ≤ 5 + (100 : ℤ) →
          (get ⟨10, 100, [("x", [1])], [("x", 5)], [("x", 5)]⟩ "x" 104).1 = some [1])) :=
  ⟨⟨by decide, by decide, by decide, by decide⟩, by decide, by decide,
    claim_C5 ⟨10, 100, [("x", [1])], [("x", 5)], [("x", 5)]⟩ "x" [1] 5 106
      ⟨by decide, by decide, by decide, by decide⟩ (by decide) (by decide),
    claim_C5 ⟨10, 100, [("x", [1])], [("x", 5)], [("x", 5)]⟩ "x" [1] 5 104
      ⟨by decide, by decide, by decide, by decide⟩ (by decide) (by decide)⟩

/-- C6 counterexample: the claim says put of an already-present key updates
it in place without evicting any other entry.  On a full cache the code's
put evicts unconditionally: with max_size 2, after put a at time 1 and put b
at time 2 the cache is full and holds a and b; putting the existing key b
again at time 3 evicts the least-recently-accessed key a, so another entry
is lost on an in-place update. -/
theorem claim_C6_counterexample :
    (put (put (emptyCache 2 100) "a" [] 1) "b" [] 2).cache.length =
        (put (put (emptyCache 2 100) "a" [] 1) "b" [] 2).max_size ∧
      getVal (put (put (emptyCache 2 100) "a" [] 1) "b" [] 2).cache "b" = some [] ∧
      getVal (put (put (emptyCache 2 100) "a" [] 1) "b" [] 2).cache "a" = some [] ∧
      getVal (put (put (put (emptyCache 2 100) "a" [] 1) "b" [] 2) "b" [] 3).cache "a" =
        none := by
  decide

/-- C6 as amended: put on a cache strictly below capacity stores the key in
place (no eviction, and an existing key keeps its slot); put on a full cache
always evicts exactly one entry first — the least-recently-accessed one —
even when the incoming key is already present, and when the evicted key
differs from the incoming one it is gone afterwards.  Inserting
max_size + 1 distinct keys with increasing times evicts the first-inserted
key, since it is the access-time minimum. -/
theorem claim_C6 (c : EmbeddingCache) (t : String) (emb : List ℚ) (now : ℤ)
    (hInv : CacheInv c) (hpos : 1 ≤ c.max_size) :
    (c.cache.length < c.max_size → put c t emb now = storeEntry c t emb now) ∧
      (c.cache.length = c.max_size →
        ∃ lru v, minKey c.access_times = some lru ∧ (lru, v) ∈ c.access_times ∧
          (∀ p ∈ c.access_times, v ≤ p.2) ∧
          put c t emb now = storeEntry (removeKey c lru) t emb now ∧
          (lru ≠ t → getVal (put c t emb now).cache lru = none)) := by
  obtain ⟨h1, h2, h3, _⟩ := hInv
  constructor
  · intro hlt
    rw [put, evictLoop_of_lt _ hlt]
  · intro hfull
    obtain ⟨lru, v, hlru, hmem, hmin, heq⟩ := evictLoop_of_full ⟨h1, h2, h3⟩ hfull hpos
    refine ⟨lru, v, hlru, hmem, hmin, ?_, ?_⟩
    · rw [put, heq]
    · intro hne
      rw [put, heq]
      simp only [storeEntry, removeKey]
      rw [getVal_dset, if_neg (fun hh => hne hh.symm)]
      exact getVal_dpop_self h3

/-- Witness for C6: a full two-entry cache receiving a fresh third key
evicts exactly the first-inserted (least-recently-accessed) key. -/
theorem claim_C6_witness :
    CacheInv (put (put (emptyCache 2 100) "a" [] 1) "b" [] 2) ∧
      1 ≤ (put (put (emptyCache 2 100) "a" [] 1) "b" [] 2).max_size ∧
      (((put (put (emptyCache 2 100) "a" [] 1) "b" [] 2).cache.length <
          (put (put (emptyCache 2 100) "a" [] 1) "b" [] 2).max_size →
        put (put (put (emptyCache 2 100) "a" [] 1) "b" [] 2) "c" [] 3 =
          storeEntry (put (put (emptyCache 2 100) "a" [] 1) "b" [] 2) "c" [] 3) ∧
        ((put (put (emptyCache 2 100) "a" [] 1) "b" [] 2).cache.length =
            (put (put (emptyCache 2 100) "a" [] 1) "b" [] 2).max_size →
          ∃ lru v,
            minKey (put (put (emptyCache 2 100) "a" [] 1) "b" [] 2).access_times =
              some lru ∧
            (lru, v) ∈ (put (put (emptyCache 2 100) "a" [] 1) "b" [] 2).access_times ∧
            (∀ p ∈ (put (put (emptyCache 2 100) "a" [] 1) "b" [] 2).access_times,
              v ≤ p.2) ∧
            put (put (put (emptyCache 2 100) "a" [] 1) "b" [] 2) "c" [] 3 =
              storeEntry (removeKey (put (put (emptyCache 2 100) "a" [] 1) "b" [] 2) lru)
                "c" [] 3 ∧
            (lru ≠ "c" →
              getVal (put (put (put (emptyCache 2 100) "a" [] 1) "b" [] 2) "c" [] 3).cache
                lru = none))) :=
  ⟨⟨by decide, by decide, by decide, by decide⟩, by decide,
    claim_C6 _ "c" [] 3 ⟨by decide, by decide, by decide, by decide⟩ (by decide)⟩

/-- C7: no strategy adapter lets a backend (or embedding) raise escape to
its caller — a raising backend yields the empty list — and a hybrid query
always proceeds to fuse whatever the three adapters returned, so one failed
strategy leaves the other two's results in play. -/
theorem claim_C7 (b : Backends) (n : ℕ) (msg : String) :
    (b.elser n = .error msg → search_elser b n = []) ∧
      (b.bm25 n = .error msg → search_bm25 b n = []) ∧
      (b.denseEmbed = .error msg → search_dense b n = []) ∧
      (b.dense n = .error msg → search_dense b n = []) ∧
      search b "hybrid" n =
        ((reciprocal_rank_fusion (search_elser b (n * 2)) (search_bm25 b (n * 2))
          (search_dense b (n * 2)) RRF_K).take n).map (fun p => (p.1, some p.2)) := by
  refine ⟨?_, ?_, ?_, ?_, ?_⟩
  · intro h
    simp [search_elser, h]
  · intro h
    simp [search_bm25, h]
  · intro h
    simp [search_dense, h]
  · intro h
    rw [search_dense]
    cases hde : b.denseEmbed with
    | error m => rfl
    | ok emb => simp [h]
  · simp [search, searchInner]

/-- Witness for C7: with the ELSER backend down and the other two healthy,
the ELSER adapter returns empty and the hybrid call still fuses. -/
theorem claim_C7_witness :
    ((Backends.elser ⟨fun _ => .error "down", fun _ => .ok [], .ok [], fun _ => .ok []⟩ 5 =
        .error "down" →
      search_elser ⟨fun _ => .error "down", fun _ => .ok [], .ok [], fun _ => .ok []⟩ 5 =
        []) ∧
      (Backends.bm25 ⟨fun _ => .error "down", fun _ => .ok [], .ok [], fun _ => .ok []⟩ 5 =
          .error "down" →
        search_bm25 ⟨fun _ => .error "down", fun _ => .ok [], .ok [], fun _ => .ok []⟩ 5 =
          []) ∧
      (Backends.denseEmbed ⟨fun _ => .error "down", fun _ => .ok [], .ok [],
          fun _ => .ok []⟩ = .error "down" →
        search_dense ⟨fun _ => .error "down", fun _ => .ok [], .ok [], fun _ => .ok []⟩ 5 =
          []) ∧
      (Backends.dense ⟨fun _ => .error "down", fun _ => .ok [], .ok [], fun _ => .ok []⟩ 5 =
          .error "down" →
        search_dense ⟨fun _ => .error "down", fun _ => .ok [], .ok [], fun _ => .ok []⟩ 5 =
          []) ∧
      search ⟨fun _ => .error "down", fun _ => .ok [], .ok [], fun _ => .ok []⟩ "hybrid" 5 =
        ((reciprocal_rank_fusion
          (search_elser ⟨fun _ => .error "down", fun _ => .ok [], .ok [], fun _ => .ok []⟩
            (5 * 2))
          (search_bm25 ⟨fun _ => .error "down", fun _ => .ok [], .ok [], fun _ => .ok []⟩
            (5 * 2))
          (search_dense ⟨fun _ => .error "down", fun _ => .ok [], .ok [], fun _ => .ok []⟩
            (5 * 2)) RRF_K).take 5).map (fun p => (p.1, some p.2))) :=
  claim_C7 _ 5 "down"

/-- C8: in single-strategy (elser) mode the orchestrator requests a pool of
top_k from the ELSER adapter only and returns it truncated to top_k with no
fusion (no rrf_score attached); in hybrid mode it requests a pool of
2 x top_k from each of the three adapters, fuses with k = RRF_K, and
returns the fused list truncated to top_k; both outputs have length at most
top_k. -/
theorem claim_C8 (b : Backends) (top_k : ℕ) (hpos : 0 < top_k) :
    search b "elser" top_k =
        ((search_elser b top_k).take top_k).map (fun r => (r, none)) ∧
      (search b "elser" top_k).length ≤ top_k ∧
      search b "hybrid" top_k =
        ((reciprocal_rank_fusion (search_elser b (2 * top_k)) (search_bm25 b (2 * top_k))
          (search_dense b (2 * top_k)) RRF_K).take top_k).map (fun p => (p.1, some p.2)) ∧
      (search b "hybrid" top_k).length ≤ top_k := by
  have he : search b "elser" top_k =
      ((search_elser b top_k).take top_k).map (fun r => (r, none)) := by
    simp [search, searchInner]
  have hh : search b "hybrid" top_k =
      ((reciprocal_rank_fusion (search_elser b (top_k * 2)) (search_bm25 b (top_k * 2))
        (search_dense b (top_k * 2)) RRF_K).take top_k).map (fun p => (p.1, some p.2)) := by
    simp [search, searchInner]
  rw [Nat.mul_comm top_k 2] at hh
  refine ⟨he, ?_, hh, ?_⟩
  · rw [he]
    simp only [List.length_map, List.length_take]
    omega
  · rw [hh]
    simp only [List.length_map, List.length_take]
    omega

/-- Witness for C8 at top_k 3 with healthy empty backends. -/
theorem claim_C8_witness :
    search ⟨fun _ => .ok [], fun _ => .ok [], .ok [], fun _ => .ok []⟩ "elser" 3 =
        ((search_elser ⟨fun _ => .ok [], fun _ => .ok [], .ok [], fun _ => .ok []⟩ 3).take
          3).map (fun r => (r, none)) ∧
      (search ⟨fun _ => .ok [], fun _ => .ok [], .ok [], fun _ => .ok []⟩ "elser" 3).length ≤
        3 ∧
      search ⟨fun _ => .ok [], fun _ => .ok [], .ok [], fun _ => .ok []⟩ "hybrid" 3 =
        ((reciprocal_rank_fusion
          (search_elser ⟨fun _ => .ok [], fun _ => .ok [], .ok [], fun _ => .ok []⟩ (2 * 3))
          (search_bm25 ⟨fun _ => .ok [], fun _ => .ok [], .ok [], fun _ => .ok []⟩ (2 * 3))
          (search_dense ⟨fun _ => .ok [], fun _ => .ok [], .ok [], fun _ => .ok []⟩ (2 * 3))
          RRF_K).take 3).map (fun p => (p.1, some p.2)) ∧
      (search ⟨fun _ => .ok [], fun _ => .ok [], .ok [], fun _ => .ok []⟩ "hybrid" 3).length ≤
        3 :=
  claim_C8 _ 3 (by decide)

/-- C10: starting from a fresh cache with max_size at least 1, every
sequence of get, put and clear operations leaves the three internal dicts
with exactly the same key list, and never more than max_size live entries. -/
theorem claim_C10 (max_size : ℕ) (ttl : ℤ) (ops : List CacheOp)
    (hpos : 1 ≤ max_size) :
    (runOps (emptyCache max_size ttl) ops).cache.map Prod.fst =
        (runOps (emptyCache max_size ttl) ops).access_times.map Prod.fst ∧
      (runOps (emptyCache max_size ttl) ops).cache.map Prod.fst =
        (runOps (emptyCache max_size ttl) ops).creation_times.map Prod.fst ∧
      (runOps (emptyCache max_size ttl) ops).cache.length ≤ max_size := by
  have hinit : CacheInv (emptyCache max_size ttl) :=
    ⟨rfl, rfl, List.nodup_nil, by simp [emptyCache]⟩
  obtain ⟨⟨h1, h2, _, h4⟩, hms⟩ := runOps_inv ops (emptyCache max_size ttl) hinit hpos
  exact ⟨h1, h2, le_trans h4 (le_of_eq hms)⟩

/-- Witness for C10: a short mixed operation sequence on a cache of
capacity 2, including an eviction-forcing third insert. -/
theorem claim_C10_witness :
    1 ≤ 2 ∧
      ((runOps (emptyCache 2 100)
          [CacheOp.opPut "a" [] 1, CacheOp.opPut "b" [] 2, CacheOp.opGet "a" 3,
            CacheOp.opPut "c" [] 4]).cache.map Prod.fst =
        (runOps (emptyCache 2 100)
          [CacheOp.opPut "a" [] 1, CacheOp.opPut "b" [] 2, CacheOp.opGet "a" 3,
            CacheOp.opPut "c" [] 4]).access_times.map Prod.fst ∧
      (runOps (emptyCache 2 100)
          [CacheOp.opPut "a" [] 1, CacheOp.opPut "b" [] 2, CacheOp.opGet "a" 3,
            CacheOp.opPut "c" [] 4]).cache.map Prod.fst =
        (runOps (emptyCache 2 100)
          [CacheOp.opPut "a" [] 1, CacheOp.opPut "b" [] 2, CacheOp.opGet "a" 3,
            CacheOp.opPut "c" [] 4]).creation_times.map Prod.fst ∧
      (runOps (emptyCache 2 100)
          [CacheOp.opPut "a" [] 1, CacheOp.opPut "b" [] 2, CacheOp.opGet "a" 3,
            CacheOp.opPut "c" [] 4]).cache.length ≤ 2) :=
  ⟨by decide, claim_C10 2 100 _ (by decide)⟩

/-- C2: with a nonnegative smoothing constant and per-list distinct
chunk_ids, the fusion engine assigns every chunk a score equal to the sum
of 1 / (k + r) over exactly the lists containing it at 1-based rank r
(absence contributes nothing); the fused chunk_ids are exactly the union of
the input chunk_ids, without duplicates; the output is ordered by fusion
score descending; a chunk in exactly one list scores 1 / (k + r); a chunk
in two lists scores the two-term sum, strictly above either term alone. -/
theorem claim_C2 (e b d : List SearchResult) (k : ℚ) (hk : 0 ≤ k)
    (he : (e.map SearchResult.chunk_id).Nodup)
    (hb : (b.map SearchResult.chunk_id).Nodup)
    (hd : (d.map SearchResult.chunk_id).Nodup) :
    (∀ f ∈ reciprocal_rank_fusion e b d k,
        f.2 = contrib k e f.1.chunk_id + contrib k b f.1.chunk_id +
          contrib k d f.1.chunk_id) ∧
      (∀ x, x ∈ (reciprocal_rank_fusion e b d k).map (fun q => q.1.chunk_id) ↔
        (x ∈ e.map SearchResult.chunk_id ∨ x ∈ b.map SearchResult.chunk_id ∨
          x ∈ d.map SearchResult.chunk_id)) ∧
      ((reciprocal_rank_fusion e b d k).map (fun q => q.1.chunk_id)).Nodup ∧
      (reciprocal_rank_fusion e b d k).Pairwise (fun f g => g.2 ≤ f.2) ∧
      (∀ f ∈ reciprocal_rank_fusion e b d k, ∀ r : ℕ,
        rankOf e f.1.chunk_id = some r → f.1.chunk_id ∉ b.map SearchResult.chunk_id →
        f.1.chunk_id ∉ d.map SearchResult.chunk_id → f.2 = 1 / (k + (r : ℚ))) ∧
      (∀ f ∈ reciprocal_rank_fusion e b d k, ∀ r1 r2 : ℕ,
        rankOf e f.1.chunk_id = some r1 → rankOf b f.1.chunk_id = some r2 →
        f.1.chunk_id ∉ d.map SearchResult.chunk_id →
        f.2 = 1 / (k + (r1 : ℚ)) + 1 / (k + (r2 : ℚ)) ∧
          1 / (k + (r1 : ℚ)) < f.2 ∧ 1 / (k + (r2 : ℚ)) < f.2) := by
  have hscore : ∀ f ∈ reciprocal_rank_fusion e b d k,
      f.2 = contrib k e f.1.chunk_id + contrib k b f.1.chunk_id +
        contrib k d f.1.chunk_id := by
    intro f hf
    rw [rrf_score_eq hf, contribFrom_zero_eq_contrib k he,
      contribFrom_zero_eq_contrib k hb, contribFrom_zero_eq_contrib k hd]
  refine ⟨hscore, fun x => rrf_mem_ids e b d k x, ?_, ?_, ?_, ?_⟩
  · rw [(rrf_out_maps e b d k).1]
    exact (List.Perm.nodup_iff ((perm_sortDesc _).map Prod.fst)).mpr
      (fusionState_nodup e b d k)
  · have h1 : ((sortDesc (fusionState e b d k).1).map Prod.snd).Pairwise
        (fun a c => c ≤ a) := List.pairwise_map.mpr (pairwise_sortDesc _)
    rw [← (rrf_out_maps e b d k).2] at h1
    exact List.pairwise_map.mp h1
  · intro f hf r hr hnb hnd2
    rw [hscore f hf]
    simp [contrib, hr, rankOf_none_iff.mpr hnb, rankOf_none_iff.mpr hnd2]
  · intro f hf r1 r2 hr1 hr2 hnd2
    have hone1 : (1 : ℚ) ≤ (r1 : ℚ) := by exact_mod_cast rankOf_pos hr1
    have hone2 : (1 : ℚ) ≤ (r2 : ℚ) := by exact_mod_cast rankOf_pos hr2
    have heq : f.2 = 1 / (k + (r1 : ℚ)) + 1 / (k + (r2 : ℚ)) := by
      rw [hscore f hf]
      simp [contrib, hr1, hr2, rankOf_none_iff.mpr hnd2]
    have hpos1 : 0 < 1 / (k + (r1 : ℚ)) := by
      apply div_pos one_pos
      linarith
    have hpos2 : 0 < 1 / (k + (r2 : ℚ)) := by
      apply div_pos one_pos
      linarith
    refine ⟨heq, ?_, ?_⟩
    · rw [heq]
      linarith
    · rw [heq]
      linarith

/-- Witness for C2: the shared chunk aaa sits at rank 1 in both the ELSER
and BM25 lists and is absent from the dense list. -/
theorem claim_C2_witness :
    (0 : ℚ) ≤ 60 ∧
      (([(⟨"ca", "a.pdf", "ua", "aaa", 5, 1⟩ : SearchResult)].map
        SearchResult.chunk_id).Nodup) ∧
      (([(⟨"cb", "b.pdf", "ub", "aaa", 4, 1⟩ : SearchResult)].map
        SearchResult.chunk_id).Nodup) ∧
      (([] : List SearchResult).map SearchResult.chunk_id).Nodup ∧
      ((∀ f ∈ reciprocal_rank_fusion [⟨"ca", "a.pdf", "ua", "aaa", 5, 1⟩]
          [⟨"cb", "b.pdf", "ub", "aaa", 4, 1⟩] [] 60,
          f.2 = contrib 60 [⟨"ca", "a.pdf", "ua", "aaa", 5, 1⟩] f.1.chunk_id +
            contrib 60 [⟨"cb", "b.pdf", "ub", "aaa", 4, 1⟩] f.1.chunk_id +
            contrib 60 [] f.1.chunk_id) ∧
        (∀ x, x ∈ (reciprocal_rank_fusion [⟨"ca", "a.pdf", "ua", "aaa", 5, 1⟩]
            [⟨"cb", "b.pdf", "ub", "aaa", 4, 1⟩] [] 60).map (fun q => q.1.chunk_id) ↔
          (x ∈ [(⟨"ca", "a.pdf", "ua", "aaa", 5, 1⟩ : SearchResult)].map
              SearchResult.chunk_id ∨
            x ∈ [(⟨"cb", "b.pdf", "ub", "aaa", 4, 1⟩ : SearchResult)].map
              SearchResult.chunk_id ∨
            x ∈ ([] : List SearchResult).map SearchResult.chunk_id)) ∧
        ((reciprocal_rank_fusion [⟨"ca", "a.pdf", "ua", "aaa", 5, 1⟩]
          [⟨"cb", "b.pdf", "ub", "aaa", 4, 1⟩] [] 60).map
            (fun q => q.1.chunk_id)).Nodup ∧
        (reciprocal_rank_fusion [⟨"ca", "a.pdf", "ua", "aaa", 5, 1⟩]
          [⟨"cb", "b.pdf", "ub", "aaa", 4, 1⟩] [] 60).Pairwise
            (fun f g => g.2 ≤ f.2) ∧
        (∀ f ∈ reciprocal_rank_fusion [⟨"ca", "a.pdf", "ua", "aaa", 5, 1⟩]
            [⟨"cb", "b.pdf", "ub", "aaa", 4, 1⟩] [] 60, ∀ r : ℕ,
          rankOf [⟨"ca", "a.pdf", "ua", "aaa", 5, 1⟩] f.1.chunk_id = some r →
          f.1.chunk_id ∉ [(⟨"cb", "b.pdf", "ub", "aaa", 4, 1⟩ : SearchResult)].map
            SearchResult.chunk_id →
          f.1.chunk_id ∉ ([] : List SearchResult).map SearchResult.chunk_id →
          f.2 = 1 / (60 + (r : ℚ))) ∧
        (∀ f ∈ reciprocal_rank_fusion [⟨"ca", "a.pdf", "ua", "aaa", 5, 1⟩]
            [⟨"cb", "b.pdf", "ub", "aaa", 4, 1⟩] [] 60, ∀ r1 r2 : ℕ,
          rankOf [⟨"ca", "a.pdf", "ua", "aaa", 5, 1⟩] f.1.chunk_id = some r1 →
          rankOf [⟨"cb", "b.pdf", "ub", "aaa", 4, 1⟩] f.1.chunk_id = some r2 →
          f.1.chunk_id ∉ ([] : List SearchResult).map SearchResult.chunk_id →
          f.2 = 1 / (60 + (r1 : ℚ)) + 1 / (60 + (r2 : ℚ)) ∧
            1 / (60 + (r1 : ℚ)) < f.2 ∧ 1 / (60 + (r2 : ℚ)) < f.2)) :=
  ⟨by norm_num, by decide, by decide, by decide,
    claim_C2 [⟨"ca", "a.pdf", "ua", "aaa", 5, 1⟩] [⟨"cb", "b.pdf", "ub", "aaa", 4, 1⟩] []
      60 (by norm_num) (by decide) (by decide) (by decide)⟩

/-- C3 counterexample: chunk x is introduced first by the ELSER list with
content first, then sighted again in the BM25 list with content second; the
fused payload is content second, i.e. the payload of the later sighting,
contradicting the claim that the first-introducing list's payload is kept. -/
theorem claim_C3_counterexample :
    (reciprocal_rank_fusion [⟨"first", "x.pdf", "ux1", "x", 5, 1⟩]
        [⟨"second", "x.pdf", "ux2", "x", 4, 1⟩] [] 60).map (fun f => f.1.content) =
      ["second"] := by
  norm_num [reciprocal_rank_fusion, fusionState, processFrom, addScore, dset, sortDesc,
    insertDesc, getVal, List.filterMap_cons, List.filterMap_nil, Option.map] <;>
    simp <;> norm_num

/-- C3 as amended: the payload attached to each fused chunk_id is the one
from the last sighting of that chunk_id when iterating the input lists in
the fixed order ELSER, BM25, dense — later sightings overwrite the payload
(and the score accumulates separately). -/
theorem claim_C3 (e b d : List SearchResult) (k : ℚ) (f : SearchResult × ℚ)
    (hf : f ∈ reciprocal_rank_fusion e b d k) :
    lastDoc (e ++ b ++ d) f.1.chunk_id = some f.1 := by
  obtain ⟨p, hp, hmap⟩ := List.mem_filterMap.mp hf
  obtain ⟨doc, hdoc, heq⟩ := Option.map_eq_some'.mp hmap
  have hcid : doc.chunk_id = p.1 := fusionState_info_wf e b d k p.1 doc hdoc
  rw [← heq]
  simp only [hcid]
  rw [← fusionState_info]
  exact hdoc

/-- Witness for C3 at the counterexample input: the surviving payload for
chunk x is the BM25 (last-sighting) document. -/
theorem claim_C3_witness :
    ((⟨"second", "x.pdf", "ux2", "x", 4, 1⟩ : SearchResult), (2 / 61 : ℚ)) ∈
        reciprocal_rank_fusion [⟨"first", "x.pdf", "ux1", "x", 5, 1⟩]
          [⟨"second", "x.pdf", "ux2", "x", 4, 1⟩] [] 60 ∧
      lastDoc ([⟨"first", "x.pdf", "ux1", "x", 5, 1⟩] ++
          [⟨"second", "x.pdf", "ux2", "x", 4, 1⟩] ++ []) "x" =
        some ⟨"second", "x.pdf", "ux2", "x", 4, 1⟩ := by
  have hm : ((⟨"second", "x.pdf", "ux2", "x", 4, 1⟩ : SearchResult), (2 / 61 : ℚ)) ∈
      reciprocal_rank_fusion [⟨"first", "x.pdf", "ux1", "x", 5, 1⟩]
        [⟨"second", "x.pdf", "ux2", "x", 4, 1⟩] [] 60 := by
    have hout : reciprocal_rank_fusion [⟨"first", "x.pdf", "ux1", "x", 5, 1⟩]
        [⟨"second", "x.pdf", "ux2", "x", 4, 1⟩] [] 60 =
        [((⟨"second", "x.pdf", "ux2", "x", 4, 1⟩ : SearchResult), (2 / 61 : ℚ))] := by
      norm_num [reciprocal_rank_fusion, fusionState, processFrom, addScore, dset, sortDesc,
        insertDesc, getVal, List.filterMap_cons, List.filterMap_nil, Option.map] <;>
        simp <;> norm_num
    rw [hout]
    exact List.mem_singleton.mpr rfl
  exact ⟨hm, claim_C3 _ _ _ 60 _ hm⟩

/-- C4 counterexample: chunk aaa appears only in the ELSER list at rank 1
and chunk bbb only in the BM25 (lexical) list at rank 1, so their fusion
scores tie at 1 / 61; the fused output lists aaa before bbb, because the
source iterates ELSER first — contradicting the claim that the fixed
iteration order puts the lexical (BM25) list first. -/
theorem claim_C4_counterexample :
    (reciprocal_rank_fusion [⟨"ca", "a.pdf", "ua", "aaa", 5, 1⟩]
        [⟨"cb", "b.pdf", "ub", "bbb", 4, 1⟩] [] 60).map (fun f => (f.1.chunk_id, f.2)) =
      [("aaa", 1 / 61), ("bbb", 1 / 61)] := by
  norm_num [reciprocal_rank_fusion, fusionState, processFrom, addScore, dset, sortDesc,
    insertDesc, getVal, List.filterMap_cons, List.filterMap_nil, Option.map] <;>
    simp <;> norm_num

/-- C4 as amended: score ties are broken stably by the order in which
chunk_ids were first encountered, with the input lists iterated in the
fixed order ELSER (sparse-expansion) first, then BM25 (lexical), then
dense — the doc_scores key list is exactly the first-encounter order over
that concatenation, and two tied entries appear in the fused output in
their first-encounter order.  The fusion is a pure function of the three
lists, so the order is independent of adapter completion timing. -/
theorem claim_C4 (e b d : List SearchResult) (k : ℚ) (p q : String × ℚ)
    (hsub : List.Sublist [p, q] (fusionState e b d k).1) (htie : p.2 = q.2) :
    (fusionState e b d k).1.map Prod.fst =
        accKeys [] (e.map SearchResult.chunk_id ++ b.map SearchResult.chunk_id ++
          d.map SearchResult.chunk_id) ∧
      ∃ dp dq, getVal (fusionState e b d k).2 p.1 = some dp ∧
        getVal (fusionState e b d k).2 q.1 = some dq ∧
        List.Sublist [(dp, p.2), (dq, q.2)] (reciprocal_rank_fusion e b d k) := by
  refine ⟨(fusionState_keys e b d k).1, ?_⟩
  have hsorted : List.Sublist [p, q] (sortDesc (fusionState e b d k).1) :=
    pair_sublist_sortDesc hsub (le_of_eq htie.symm)
  have hp : p ∈ sortDesc (fusionState e b d k).1 := hsorted.subset (by simp)
  have hq : q ∈ sortDesc (fusionState e b d k).1 := hsorted.subset (by simp)
  obtain ⟨dp, hdp⟩ := Option.isSome_iff_exists.mp (fusionState_lookup_isSome e b d k hp)
  obtain ⟨dq, hdq⟩ := Option.isSome_iff_exists.mp (fusionState_lookup_isSome e b d k hq)
  refine ⟨dp, dq, hdp, hdq, ?_⟩
  have hfm := List.Sublist.filterMap
    (fun p => (getVal (fusionState e b d k).2 p.1).map (fun doc => (doc, p.2))) hsorted
  rw [reciprocal_rank_fusion]
  have hpair : List.filterMap
      (fun p => (getVal (fusionState e b d k).2 p.1).map (fun doc => (doc, p.2))) [p, q] =
      [(dp, p.2), (dq, q.2)] := by
    simp [List.filterMap_cons, hdp, hdq]
  rw [hpair] at hfm
  exact hfm

/-- Witness for C4 at the counterexample input: the two tied singleton
chunks, in ELSER-then-BM25 first-encounter order. -/
theorem claim_C4_witness :
    List.Sublist [("aaa", (1 / 61 : ℚ)), ("bbb", (1 / 61 : ℚ))]
        (fusionState [⟨"ca", "a.pdf", "ua", "aaa", 5, 1⟩]
          [⟨"cb", "b.pdf", "ub", "bbb", 4, 1⟩] [] 60).1 ∧
      ((fusionState [⟨"ca", "a.pdf", "ua", "aaa", 5, 1⟩]
          [⟨"cb", "b.pdf", "ub", "bbb", 4, 1⟩] [] 60).1.map Prod.fst =
        accKeys [] ([(⟨"ca", "a.pdf", "ua", "aaa", 5, 1⟩ : SearchResult)].map
          SearchResult.chunk_id ++
          [(⟨"cb", "b.pdf", "ub", "bbb", 4, 1⟩ : SearchResult)].map
            SearchResult.chunk_id ++
          ([] : List SearchResult).map SearchResult.chunk_id) ∧
      ∃ dp dq, getVal (fusionState [⟨"ca", "a.pdf", "ua", "aaa", 5, 1⟩]
          [⟨"cb", "b.pdf", "ub", "bbb", 4, 1⟩] [] 60).2 "aaa" = some dp ∧
        getVal (fusionState [⟨"ca", "a.pdf", "ua", "aaa", 5, 1⟩]
          [⟨"cb", "b.pdf", "ub", "bbb", 4, 1⟩] [] 60).2 "bbb" = some dq ∧
        List.Sublist [(dp, (1 / 61 : ℚ)), (dq, (1 / 61 : ℚ))]
          (reciprocal_rank_fusion [⟨"ca", "a.pdf", "ua", "aaa", 5, 1⟩]
            [⟨"cb", "b.pdf", "ub", "bbb", 4, 1⟩] [] 60)) := by
  have hst : (fusionState [⟨"ca", "a.pdf", "ua", "aaa", 5, 1⟩]
      [⟨"cb", "b.pdf", "ub", "bbb", 4, 1⟩] [] 60).1 =
      [("aaa", (1 / 61 : ℚ)), ("bbb", (1 / 61 : ℚ))] := by
    norm_num [fusionState, processFrom, addScore, dset, getVal] <;> simp <;> norm_num
  have hsub : List.Sublist [("aaa", (1 / 61 : ℚ)), ("bbb", (1 / 61 : ℚ))]
      (fusionState [⟨"ca", "a.pdf", "ua", "aaa", 5, 1⟩]
        [⟨"cb", "b.pdf", "ub", "bbb", 4, 1⟩] [] 60).1 := by
    rw [hst]
  exact ⟨hsub, claim_C4 _ _ _ 60 ("aaa", (1 / 61 : ℚ)) ("bbb", (1 / 61 : ℚ)) hsub rfl⟩

end RagRetrieval
